import Mathlib

/-!
Shallow embedding of the timesheet web component (`src/lit-timesheet.ts`).

Modelling conventions:
  * The JS `Map<string, TimeEntry>` is an association list `List (String × TimeEntry)`
    in insertion order (a JS Map iterates in insertion order and has unique keys).
  * JS `Date.parse` of a string `` `${date} ${time}` `` (date `YYYY-MM-DD`, time `HH:MM`)
    is modelled by an order-preserving numeric code in minutes
    (`dateParse`); an unparseable string yields `none`, modelling `NaN`.
    Only comparisons of these values are used by the source, so any
    order-isomorphic encoding is faithful.  JS comparisons involving `NaN`
    are always false, modelled by `jsLt`/`jsLe` on `Option Nat`.
  * In-place mutation of an entry object (which is aliased by the map) is
    modelled by returning the updated entry and writing it back into the
    map at its key (`updateEntry`).
  * Database calls are recorded as a trace of `DBEvent`s; `getDB` opens a
    connection, `close` closes it.
  * The source field `end` is called `endT` here, `end` being a Lean keyword.
-/

/-- The `TimeEntry` record type from `lit-timesheet.ts`. -/
structure TimeEntry where
  date : String
  start : String
  endT : String
  category : String
  description : String
  valid : Bool
  dirty : Bool
deriving DecidableEq, Repr

/-- The keys of `TimeEntry` (`type TimeEntryKey = keyof TimeEntry`). -/
inductive TimeEntryKey where
  | date | start | endK | category | description | valid | dirty
deriving DecidableEq, Repr

/-- A JS value that can sit in a `TimeEntry` field: a string or a boolean. -/
inductive JSValue where
  | str (s : String)
  | bool (b : Bool)
deriving DecidableEq, Repr

/-- Dynamic field access `entry[field]`. -/
def TimeEntry.get (e : TimeEntry) : TimeEntryKey → JSValue
  | .date => .str e.date
  | .start => .str e.start
  | .endK => .str e.endT
  | .category => .str e.category
  | .description => .str e.description
  | .valid => .bool e.valid
  | .dirty => .bool e.dirty

/-- The in-memory entry store `this.entries : Map<string, TimeEntry>`. -/
abbrev EntryMap := List (String × TimeEntry)

/-- Parse `"HH:MM"` to minutes since midnight; `none` models `NaN`. -/
def parseTime (s : String) : Option Nat :=
  match s.toList with
  | [h1, h2, ':', m1, m2] =>
    if h1.isDigit && h2.isDigit && m1.isDigit && m2.isDigit then
      let hh := h1.toNat * 10 + h2.toNat - (11 * '0'.toNat)
      let mm := m1.toNat * 10 + m2.toNat - (11 * '0'.toNat)
      if hh ≤ 23 && mm ≤ 59 then some (hh * 60 + mm) else none
    else none
  | _ => none

/-- Parse `"YYYY-MM-DD"` to an order-preserving day code; `none` models `NaN`. -/
def parseDate (s : String) : Option Nat :=
  match s.toList with
  | [y1, y2, y3, y4, '-', o1, o2, '-', d1, d2] =>
    if y1.isDigit && y2.isDigit && y3.isDigit && y4.isDigit &&
       o1.isDigit && o2.isDigit && d1.isDigit && d2.isDigit then
      let y := ((y1.toNat * 10 + y2.toNat) * 10 + y3.toNat) * 10 + y4.toNat
                 - (1111 * '0'.toNat)
      let mo := o1.toNat * 10 + o2.toNat - (11 * '0'.toNat)
      let d := d1.toNat * 10 + d2.toNat - (11 * '0'.toNat)
      if 1 ≤ mo && mo ≤ 12 && 1 ≤ d && d ≤ 31 then
        some (y * 10000 + mo * 100 + d)
      else none
    else none
  | _ => none

/-- Model of `Date.parse` of `` `${date} ${time}` `` as an order-preserving minute code. -/
def dateParse (date time : String) : Option Nat :=
  match parseDate date, parseTime time with
  | some d, some t => some (d * 1440 + t)
  | _, _ => none

/-- JS `<` on numbers that may be `NaN` (`none`): any comparison with `NaN` is false. -/
def jsLt : Option Nat → Option Nat → Bool
  | some a, some b => a < b
  | _, _ => false

/-- JS `<=` on numbers that may be `NaN`. -/
def jsLe : Option Nat → Option Nat → Bool
  | some a, some b => a ≤ b
  | _, _ => false

/-- Lexicographic order on character lists, by code point; on the strings the
source compares (ASCII times and labels) this agrees with JS's UTF-16
code-unit comparison. -/
def charListLt : List Char → List Char → Bool
  | [], [] => false
  | [], _ :: _ => true
  | _ :: _, [] => false
  | a :: as, b :: bs => if a < b then true else if b < a then false else charListLt as bs

/-- JS `<` on strings. -/
def strLt (a b : String) : Bool := charListLt a.toList b.toList

/-- JS `>=` on strings: `a >= b` iff not `a < b`. -/
def strGe (a b : String) : Bool := !(strLt a b)

/-- Function `filterMap` from the source: keep the entries whose `field` strictly
equals (`===`) the query value. -/
def filterMap (m : EntryMap) (field : TimeEntryKey) (query : JSValue) : EntryMap :=
  m.filter (fun p => p.2.get field == query)

/-- The overlap test of `validateEntry` against one other entry, given the
parsed `start`/`end` of the entry under validation. -/
def overlapTest (s en : Option Nat) (o : TimeEntry) : Bool :=
  let otherStart := dateParse o.date o.start
  let otherEnd := dateParse o.date o.endT
  (jsLe otherStart s && jsLt s otherEnd) || (jsLe s otherStart && jsLt otherStart en)

/-- The half-open interval collision test between two entries, as
`validateEntry` computes it. -/
def overlaps (e o : TimeEntry) : Bool :=
  overlapTest (dateParse e.date e.start) (dateParse e.date e.endT) o

/-- The `for`-loop of `validateEntry`: scan the same-date entries, skip the
entry itself by uuid, and return `false` on the first collision. -/
def validateLoop (uuid : String) (s en : Option Nat) : EntryMap → Bool
  | [] => true
  | (otherUuid, otherEntry) :: rest =>
    if uuid = otherUuid then validateLoop uuid s en rest
    else if overlapTest s en otherEntry then false
    else validateLoop uuid s en rest

/-- The boolean outcome of `validateEntry entry uuid` against the map `m`. -/
def validateResult (m : EntryMap) (e : TimeEntry) (uuid : String) : Bool :=
  if strGe e.start e.endT then false
  else
    let s := dateParse e.date e.start
    let en := dateParse e.date e.endT
    let otherEntries := filterMap m TimeEntryKey.date (JSValue.str e.date)
    validateLoop uuid s en otherEntries

/-- Function `validateEntry` returns its boolean outcome and mutates `entry.valid`
to that same value (the source sets the flag at each of its three returns). -/
def validateEntry (m : EntryMap) (e : TimeEntry) (uuid : String) : TimeEntry × Bool :=
  let b := validateResult m e uuid
  ({ e with valid := b }, b)

/-- Write-back of an in-place mutation of the entry object stored at `uuid`. -/
def updateEntry (m : EntryMap) (uuid : String) (e : TimeEntry) : EntryMap :=
  m.map (fun p => if p.1 = uuid then (uuid, e) else p)

/-- Semantics of `Map.set`: replace the value at the key if present, else append. -/
def setEntry (m : EntryMap) (uuid : String) (e : TimeEntry) : EntryMap :=
  if m.any (fun p => p.1 = uuid) then updateEntry m uuid e else m ++ [(uuid, e)]

/-- Semantics of `Map.get` (as used after a guaranteed `set`). -/
def lookupEntry (m : EntryMap) (uuid : String) : Option TimeEntry :=
  (m.find? (fun p => p.1 = uuid)).map (·.2)

/-- The sequential revalidation pass: each entry's flag is recomputed against
the map as already mutated by the earlier iterations. -/
def updateVS (done : EntryMap) : EntryMap → EntryMap
  | [] => done
  | (uuid, e) :: rest =>
    let b := validateResult (done ++ (uuid, e) :: rest) e uuid
    updateVS (done ++ [(uuid, { e with valid := b })]) rest

/-- Method `updateValidationStatus`: revalidate every entry of the map in order. -/
def updateValidationStatus (m : EntryMap) : EntryMap := updateVS [] m

/-- One call to the persistence layer, recorded in order of execution. -/
inductive DBEvent where
  | getDB
  | close
  | put (uuid : String) (entry : TimeEntry)
  | delete (uuid : String)
  | getAllKeys
  | get (uuid : String)
deriving DecidableEq, Repr

/-- The `for`-loop body of `saveValidDitryEntries`: walk the captured list of
dirty entries; each one is revalidated against the current map (its flag
mutation written back), and put to the store when it validates. -/
def svdLoop (m : EntryMap) : EntryMap → EntryMap × List DBEvent
  | [] => (m, [])
  | (dirtyUuid, dirtyEntry) :: rest =>
    let r := validateEntry m dirtyEntry dirtyUuid
    if r.2 then
      let saved := { r.1 with dirty := false }
      let next := svdLoop (updateEntry m dirtyUuid saved) rest
      (next.1, DBEvent.put dirtyUuid saved :: next.2)
    else
      svdLoop (updateEntry m dirtyUuid r.1) rest

/-- Method `saveValidDitryEntries` (name as in the source): collect the dirty
entries, open the database, and save each one that now validates.  The
source never closes this connection. -/
def saveValidDitryEntries (m : EntryMap) : EntryMap × List DBEvent :=
  let dirtyEntries := filterMap m TimeEntryKey.dirty (JSValue.bool true)
  let r := svdLoop m dirtyEntries
  (r.1, DBEvent.getDB :: r.2)

/-- Method `saveEntry entry uuid`: validate; if valid clear `dirty` and put, then run
the cascade when `oldValidFlag` was true; otherwise set `dirty`.  Returns the
updated map, the updated (aliased) entry object, and the DB trace. -/
def saveEntry (m : EntryMap) (e : TimeEntry) (uuid : String) :
    EntryMap × TimeEntry × List DBEvent :=
  let oldValidFlag := e.valid
  let r := validateEntry m e uuid
  if r.2 then
    let saved := { r.1 with dirty := false }
    let m1 := updateEntry m uuid saved
    let t1 := [DBEvent.getDB, DBEvent.put uuid saved, DBEvent.close]
    if oldValidFlag then
      let c := saveValidDitryEntries m1
      (c.1, saved, t1 ++ c.2)
    else
      (m1, saved, t1)
  else
    let marked := { r.1 with dirty := true }
    (updateEntry m uuid marked, marked, [])

/-- Method `deleteEntry entry uuid`: drop the key from the map, run the cascade when
the deleted entry was invalid, then delete the key from the store. -/
def deleteEntry (m : EntryMap) (e : TimeEntry) (uuid : String) :
    EntryMap × List DBEvent :=
  let m1 := m.filter (fun p => !(p.1 == uuid))
  if e.valid then
    (m1, [DBEvent.getDB, DBEvent.delete uuid, DBEvent.close])
  else
    let c := saveValidDitryEntries m1
    (c.1, c.2 ++ [DBEvent.getDB, DBEvent.delete uuid, DBEvent.close])

/-- The comparator passed to `sort` in `sortEntries`. -/
def cmpEntries (a b : String × TimeEntry) : Int :=
  let timestampA := dateParse a.2.date a.2.start
  let timestampB := dateParse b.2.date b.2.start
  if jsLt timestampA timestampB then -1
  else if jsLt timestampB timestampA then 1
  else if strLt a.2.category b.2.category then -1
  else if strLt b.2.category a.2.category then 1
  else if strLt a.2.description b.2.description then -1
  else if strLt b.2.description a.2.description then 1
  else 0

/-- Insert `x` into an already comparator-sorted list, before the first
element it must precede (the stable position). -/
def insertSorted (le : α → α → Bool) (x : α) : List α → List α
  | [] => [x]
  | y :: ys => if le x y then x :: y :: ys else y :: insertSorted le x ys

/-- Model of `Array.prototype.sort` with a comparator, modelled as a stable insertion
sort: an element is ordered before another when the comparator is `≤ 0`. -/
def jsSort (le : α → α → Bool) : List α → List α
  | [] => []
  | x :: xs => insertSorted le x (jsSort le xs)

/-- Method `sortEntries`: rebuild the map sorted by the comparator. -/
def sortEntries (m : EntryMap) : EntryMap :=
  jsSort (fun a b => cmpEntries a b ≤ 0) m

/-- Method `loadEntries`, parameterised by the stored key/entry pairs: read them all
into the map, close the connection, sort, and revalidate. -/
def loadEntries (m : EntryMap) (store : List (String × TimeEntry)) :
    EntryMap × List DBEvent :=
  let m1 := store.foldl (fun acc p => setEntry acc p.1 p.2) m
  let t := DBEvent.getDB :: DBEvent.getAllKeys ::
    (store.map (fun p => DBEvent.get p.1) ++ [DBEvent.close])
  (updateValidationStatus (sortEntries m1), t)

/-- Method `getLatestTime date`: the latest `end` among the entries of that date,
with `"07:00"` as the `reduce` seed (`max > current ? max : current`). -/
def getLatestTime (m : EntryMap) (date : String) : String :=
  let entriesFromDate := filterMap m TimeEntryKey.date (JSValue.str date)
  (entriesFromDate.map (fun p => p.2.endT)).foldl
    (fun max current => if strLt current max then max else current) "07:00"

/-- Two-digit decimal rendering, as a 24-hour locale formats times. -/
def pad2 (k : Nat) : String := if k < 10 then "0" ++ toString k else toString k

/-- Model of `new Date(ms).toLocaleTimeString().slice(0, 5)` in a 24-hour locale:
render minutes-since-midnight as `HH:MM`, rolling over past midnight. -/
def minutesToHHMM (n : Nat) : String :=
  pad2 ((n % 1440) / 60) ++ ":" ++ pad2 (n % 60)

/-- Method `addNew`, parameterised by the generated uuid and today's date string:
build the default entry, insert it, revalidate everything, then attempt to
save it (the entry object is aliased, so `saveEntry` sees the flags written
by the revalidation pass).  `"Inval"` is `"Invalid Date".slice(0, 5)`, the
outcome when the start string does not parse. -/
def addNewEntry (m : EntryMap) (today : String) : TimeEntry :=
  let start := getLatestTime m today
  let endT : String :=
    if strGe start "23:30" then "23:59"
    else
      match dateParse today start with
      | some startTime => minutesToHHMM (startTime + 30)
      | none => "Inval"
  { date := today, start := start, endT := endT, category := "Meeting",
    description := "", valid := false, dirty := true }

def addNew (m : EntryMap) (uuid today : String) :
    EntryMap × TimeEntry × List DBEvent :=
  let entry := addNewEntry m today
  let m1 := setEntry m uuid entry
  let m2 := updateValidationStatus m1
  let aliased := (lookupEntry m2 uuid).getD entry
  saveEntry m2 aliased uuid

/-- The data of a map entry that `validateEntry` can read from other
entries: key, date, start, end.  Flag mutations do not change it. -/
def keyTimes (p : String × TimeEntry) : String × String × String × String :=
  (p.1, p.2.date, p.2.start, p.2.endT)

/-- An event is either not a `put`, or puts an entry that is valid and clean. -/
def putOK : DBEvent → Bool
  | .put _ e => e.valid && !e.dirty
  | _ => true

example : parseTime "08:30" = some 510 := by decide
example : parseTime "8:30" = none := by decide
example : parseTime "24:00" = none := by decide
example : dateParse "2024-01-01" "00:01" = some (20240101 * 1440 + 1) := by decide
example : strGe "08:00" "08:00" = true := by decide
example : strGe "08:00" "09:00" = false := by decide

/-! ### Order lemmas for the lexicographic string comparison -/

theorem charListLt_trans : ∀ (a b c : List Char),
    charListLt a b = true → charListLt b c = true → charListLt a c = true := by
  intro a
  induction a with
  | nil =>
    intro b c hab hbc
    cases b with
    | nil => simp [charListLt] at hab
    | cons y ys =>
      cases c with
      | nil => simp [charListLt] at hbc
      | cons z zs => simp [charListLt]
  | cons x xs ih =>
    intro b c hab hbc
    cases b with
    | nil => simp [charListLt] at hab
    | cons y ys =>
      cases c with
      | nil => simp [charListLt] at hbc
      | cons z zs =>
        simp only [charListLt] at hab hbc ⊢
        by_cases hxy : x < y
        · by_cases hyz : y < z
          · have hxz : x < z := lt_trans hxy hyz
            simp [hxz]
          · simp [hxy] at hab
            by_cases hzy : z < y
            · simp [hyz, hzy] at hbc
            · have : y = z := le_antisymm (not_lt.mp hzy) (not_lt.mp hyz)
              subst this
              simp [hxy]
        · by_cases hyx : y < x
          · simp [hxy, hyx] at hab
          · have hxy' : x = y := le_antisymm (not_lt.mp hyx) (not_lt.mp hxy)
            subst hxy'
            simp only [lt_irrefl, if_false] at hab
            by_cases hxz : x < z
            · simp [hxz]
            · by_cases hzx : z < x
              · simp [hxz, hzx] at hbc
              · have : x = z := le_antisymm (not_lt.mp hzx) (not_lt.mp hxz)
                subst this
                simp only [lt_irrefl, if_false] at hbc ⊢
                exact ih ys zs hab hbc

theorem charListLt_eq_of_not_lt : ∀ (a b : List Char),
    charListLt a b = false → charListLt b a = false → a = b := by
  intro a
  induction a with
  | nil =>
    intro b hab _
    cases b with
    | nil => rfl
    | cons y ys => simp [charListLt] at hab
  | cons x xs ih =>
    intro b hab hba
    cases b with
    | nil => simp [charListLt] at hba
    | cons y ys =>
      simp only [charListLt] at hab hba
      by_cases hxy : x < y
      · simp [hxy] at hab
      · by_cases hyx : y < x
        · simp [hyx, hxy] at hba
        · have hxy' : x = y := le_antisymm (not_lt.mp hyx) (not_lt.mp hxy)
          subst hxy'
          simp only [lt_irrefl, if_false] at hab hba
          rw [ih ys hab hba]

theorem strLt_trans {a b c : String} (hab : strLt a b = true) (hbc : strLt b c = true) :
    strLt a c = true :=
  charListLt_trans _ _ _ hab hbc

theorem strLt_eq_of_not_lt {a b : String} (hab : strLt a b = false)
    (hba : strLt b a = false) : a = b := by
  have h := charListLt_eq_of_not_lt _ _ hab hba
  have hd : a.data = b.data := by
    simpa [String.toList] using h
  cases a; cases b; exact congrArg String.mk hd

theorem strLt_asymm {a b : String} (hab : strLt a b = true) : strLt b a = false := by
  by_contra h
  have hba : strLt b a = true := by
    cases hb : strLt b a with
    | false => exact absurd hb h
    | true => rfl
  have : strLt a a = true := strLt_trans hab hba
  have hch : ∀ l : List Char, charListLt l l = false := by
    intro l
    induction l with
    | nil => rfl
    | cons x xs ih => simp [charListLt, ih]
  simp [strLt, hch] at this

/-! ### Characterisation of the validator -/

theorem validateLoop_eq_true_iff (uuid : String) (s en : Option Nat) :
    ∀ l : EntryMap, validateLoop uuid s en l = true ↔
      ∀ p ∈ l, p.1 ≠ uuid → overlapTest s en p.2 = false := by
  intro l
  induction l with
  | nil => simp [validateLoop]
  | cons q rest ih =>
    obtain ⟨otherUuid, otherEntry⟩ := q
    simp only [validateLoop]
    by_cases huu : uuid = otherUuid
    · rw [if_pos huu]
      rw [ih]
      constructor
      · intro h p hp hne
        rcases List.mem_cons.mp hp with h1 | h1
        · exfalso
          apply hne
          rw [h1, ← huu]
        · exact h p h1 hne
      · intro h p hp hne
        exact h p (List.mem_cons_of_mem _ hp) hne
    · rw [if_neg huu]
      cases hov : overlapTest s en otherEntry with
      | true =>
        rw [if_pos rfl]
        constructor
        · intro h; exact absurd h (by simp)
        · intro h
          have := h (otherUuid, otherEntry) (List.mem_cons_self _ _)
            (fun hx => huu hx.symm)
          rw [hov] at this
          exact absurd this (by simp)
      | false =>
        rw [if_neg Bool.false_ne_true]
        rw [ih]
        constructor
        · intro h p hp hne
          rcases List.mem_cons.mp hp with h1 | h1
          · rw [h1]; exact hov
          · exact h p h1 hne
        · intro h p hp hne
          exact h p (List.mem_cons_of_mem _ hp) hne

theorem mem_filterMap_date (m : EntryMap) (d : String) (p : String × TimeEntry) :
    p ∈ filterMap m TimeEntryKey.date (JSValue.str d) ↔ p ∈ m ∧ p.2.date = d := by
  simp only [filterMap, List.mem_filter, TimeEntry.get]
  constructor
  · rintro ⟨hm, hq⟩
    refine ⟨hm, ?_⟩
    have := eq_of_beq hq
    simpa using this
  · rintro ⟨hm, hq⟩
    exact ⟨hm, by simp [hq]⟩

theorem validateResult_eq_true_iff (m : EntryMap) (e : TimeEntry) (uuid : String) :
    validateResult m e uuid = true ↔
      strGe e.start e.endT = false ∧
        ∀ p ∈ m, p.1 ≠ uuid → p.2.date = e.date → overlaps e p.2 = false := by
  unfold validateResult
  cases hge : strGe e.start e.endT with
  | true =>
    rw [if_pos rfl]
    simp
  | false =>
    rw [if_neg Bool.false_ne_true]
    constructor
    · intro h
      refine ⟨rfl, ?_⟩
      rw [validateLoop_eq_true_iff] at h
      intro p hp hne hd
      exact h p ((mem_filterMap_date m e.date p).mpr ⟨hp, hd⟩) hne
    · rintro ⟨-, h⟩
      rw [validateLoop_eq_true_iff]
      intro p hp hne
      obtain ⟨hm, hd⟩ := (mem_filterMap_date m e.date p).mp hp
      exact h p hm hne hd

theorem overlaps_symm (e o : TimeEntry) : overlaps o e = overlaps e o := by
  simp only [overlaps, overlapTest]
  exact Bool.or_comm _ _

/-! ### The revalidation pass as a pure map -/

theorem overlaps_congr (e o1 o2 : TimeEntry) (hd : o1.date = o2.date)
    (hs : o1.start = o2.start) (he : o1.endT = o2.endT) :
    overlaps e o1 = overlaps e o2 := by
  simp [overlaps, overlapTest, hd, hs, he]

/-- The outcome of `validateEntry` only depends on the keys and times of the map. -/
theorem validateResult_congr (m1 m2 : EntryMap)
    (h : m1.map keyTimes = m2.map keyTimes) (e : TimeEntry) (uuid : String) :
    validateResult m1 e uuid = validateResult m2 e uuid := by
  have key : ∀ (ma mb : EntryMap), ma.map keyTimes = mb.map keyTimes →
      (∀ p ∈ ma, p.1 ≠ uuid → p.2.date = e.date → overlaps e p.2 = false) →
      (∀ p ∈ mb, p.1 ≠ uuid → p.2.date = e.date → overlaps e p.2 = false) := by
    intro ma mb hab hma p hp hne hd
    have hkt : keyTimes p ∈ ma.map keyTimes := by
      rw [hab]
      exact List.mem_map_of_mem _ hp
    obtain ⟨q, hq, hqe⟩ := List.mem_map.mp hkt
    have h1 : q.1 = p.1 :=
      congrArg (fun x : String × String × String × String => x.1) hqe
    have h2 : q.2.date = p.2.date :=
      congrArg (fun x : String × String × String × String => x.2.1) hqe
    have h3 : q.2.start = p.2.start :=
      congrArg (fun x : String × String × String × String => x.2.2.1) hqe
    have h4 : q.2.endT = p.2.endT :=
      congrArg (fun x : String × String × String × String => x.2.2.2) hqe
    have := hma q hq (by rw [h1]; exact hne) (by rw [h2]; exact hd)
    rw [← overlaps_congr e q.2 p.2 h2 h3 h4]
    exact this
  cases hb : validateResult m2 e uuid with
  | true =>
    rw [validateResult_eq_true_iff] at hb ⊢
    exact ⟨hb.1, key m2 m1 h.symm hb.2⟩
  | false =>
    cases ha : validateResult m1 e uuid with
    | false => rfl
    | true =>
      rw [validateResult_eq_true_iff] at ha
      have : validateResult m2 e uuid = true := by
        rw [validateResult_eq_true_iff]
        exact ⟨ha.1, key m1 m2 h ha.2⟩
      rw [this] at hb
      exact hb

theorem updateVS_eq : ∀ (pending done m0 : EntryMap),
    (done ++ pending).map keyTimes = m0.map keyTimes →
    updateVS done pending =
      done ++ pending.map
        (fun p => (p.1, { p.2 with valid := validateResult m0 p.2 p.1 })) := by
  intro pending
  induction pending with
  | nil => intro done m0 _; simp [updateVS]
  | cons q rest ih =>
    intro done m0 h
    obtain ⟨u, e⟩ := q
    simp only [updateVS]
    have hb : validateResult (done ++ (u, e) :: rest) e u = validateResult m0 e u :=
      validateResult_congr _ _ h e u
    rw [hb]
    have happ : done ++ [(u, { e with valid := validateResult m0 e u })] ++ rest =
        done ++ (u, { e with valid := validateResult m0 e u }) :: rest := by
      simp
    have hview : (done ++ [(u, { e with valid := validateResult m0 e u })] ++ rest).map keyTimes
        = m0.map keyTimes := by
      rw [happ, ← h]
      simp [keyTimes]
    have hrec := ih (done ++ [(u, { e with valid := validateResult m0 e u })]) m0 hview
    exact hrec.trans (by simp)

theorem updateValidationStatus_eq (m : EntryMap) :
    updateValidationStatus m =
      m.map (fun p => (p.1, { p.2 with valid := validateResult m p.2 p.1 })) := by
  have := updateVS_eq m [] m (by simp)
  simpa [updateValidationStatus] using this

/-! ### Claim C1 -/

/-- C1: `validateEntry` returns `false` (and sets `valid := false`) when
`start >= end`, regardless of the other entries; otherwise it returns `true`
iff no other entry (self excluded by uuid) with the same date overlaps per
the half-open test; and the returned boolean always equals the `valid` flag
it just set. -/
theorem claim_C1_validateEntry (m : EntryMap) (e : TimeEntry) (uuid : String) :
    (validateEntry m e uuid).2 = (validateEntry m e uuid).1.valid ∧
    (strGe e.start e.endT = true → (validateEntry m e uuid).2 = false) ∧
    ((validateEntry m e uuid).2 = true ↔
      strGe e.start e.endT = false ∧
        ∀ p ∈ m, p.1 ≠ uuid → p.2.date = e.date → overlaps e p.2 = false) := by
  refine ⟨rfl, ?_, ?_⟩
  · intro h
    cases hv : (validateEntry m e uuid).2 with
    | false => rfl
    | true =>
      have hiff := (validateResult_eq_true_iff m e uuid).mp hv
      rw [h] at hiff
      exact absurd hiff.1 (by simp)
  · exact validateResult_eq_true_iff m e uuid

/-- Witness for C1: an entry ending before it starts is rejected. -/
theorem claim_C1_witness :
    strGe "09:00" "08:00" = true ∧
    (validateEntry []
      ⟨"2024-01-01", "09:00", "08:00", "Meeting", "", true, false⟩ "a").2 = false :=
  ⟨by decide,
    (claim_C1_validateEntry []
      ⟨"2024-01-01", "09:00", "08:00", "Meeting", "", true, false⟩ "a").2.1 (by decide)⟩

/-! ### Claim C2 -/

/-- C2: after a full revalidation pass, two distinct entries with the same
date whose intervals collide per the half-open test are never both valid. -/
theorem claim_C2_no_two_valid_overlapping (m : EntryMap) (u1 u2 : String)
    (e1 e2 : TimeEntry) (h1 : (u1, e1) ∈ updateValidationStatus m)
    (h2 : (u2, e2) ∈ updateValidationStatus m) (hne : u1 ≠ u2)
    (hd : e1.date = e2.date) (hov : overlaps e1 e2 = true) :
    ¬(e1.valid = true ∧ e2.valid = true) := by
  rintro ⟨hv1, hv2⟩
  rw [updateValidationStatus_eq] at h1 h2
  obtain ⟨p1, hp1, hpe1⟩ := List.mem_map.mp h1
  obtain ⟨p2, hp2, hpe2⟩ := List.mem_map.mp h2
  have hu1 : p1.1 = u1 := congrArg Prod.fst hpe1
  have hu2 : p2.1 = u2 := congrArg Prod.fst hpe2
  have he1 : { p1.2 with valid := validateResult m p1.2 p1.1 } = e1 :=
    congrArg Prod.snd hpe1
  have he2 : { p2.2 with valid := validateResult m p2.2 p2.1 } = e2 :=
    congrArg Prod.snd hpe2
  have hb1 : validateResult m p1.2 p1.1 = true := by
    have : ({ p1.2 with valid := validateResult m p1.2 p1.1 } : TimeEntry).valid = true := by
      rw [he1]; exact hv1
    exact this
  have hd1 : p1.2.date = e1.date := by rw [← he1]
  have hd2 : p2.2.date = e2.date := by rw [← he2]
  have hall := ((validateResult_eq_true_iff m p1.2 p1.1).mp hb1).2
  have hne21 : p2.1 ≠ p1.1 := by
    rw [hu1, hu2]; exact hne.symm
  have hdd : p2.2.date = p1.2.date := by
    rw [hd1, hd2, hd]
  have hfalse := hall p2 hp2 hne21 hdd
  have hov' : overlaps p1.2 p2.2 = true := by
    rw [← he1, ← he2] at hov
    exact hov
  rw [hfalse] at hov'
  exact absurd hov' (by simp)

/-- Witness for C2: two same-date entries `08:00-09:00` and `08:30-09:30`
both end up invalid after the pass. -/
theorem claim_C2_witness :
    ¬((⟨"2024-01-01", "08:00", "09:00", "Meeting", "", false, false⟩ : TimeEntry).valid = true ∧
      (⟨"2024-01-01", "08:30", "09:30", "Meeting", "", false, false⟩ : TimeEntry).valid = true) :=
  claim_C2_no_two_valid_overlapping
    [("a", ⟨"2024-01-01", "08:00", "09:00", "Meeting", "", true, false⟩),
     ("b", ⟨"2024-01-01", "08:30", "09:30", "Meeting", "", true, false⟩)]
    "a" "b"
    ⟨"2024-01-01", "08:00", "09:00", "Meeting", "", false, false⟩
    ⟨"2024-01-01", "08:30", "09:30", "Meeting", "", false, false⟩
    (by decide) (by decide) (by decide) (by decide) (by decide)

/-! ### Claim C7 -/

/-- C7: `filterMap` returns exactly the entries whose field equals the query,
as a sublist of the input (order preserved, entries untouched). -/
theorem claim_C7_filterMap (m : EntryMap) (field : TimeEntryKey) (query : JSValue) :
    List.Sublist (filterMap m field query) m ∧
    ∀ p : String × TimeEntry,
      p ∈ filterMap m field query ↔ p ∈ m ∧ (p.2.get field == query) = true := by
  constructor
  · exact List.filter_sublist m
  · intro p
    simp [filterMap, List.mem_filter]

/-! ### Claim C4 -/

/-- C4: when validation fails inside `saveEntry`, the entry is marked dirty,
no database call at all is made, and the map only receives the flag update. -/
theorem claim_C4_invalid_save_is_storage_noop (m : EntryMap) (e : TimeEntry)
    (uuid : String) (h : validateResult m e uuid = false) :
    (saveEntry m e uuid).2.1.dirty = true ∧
    (saveEntry m e uuid).2.2 = [] ∧
    (saveEntry m e uuid).1 = updateEntry m uuid { e with valid := false, dirty := true } := by
  simp only [saveEntry, validateEntry, h]
  simp [h]

/-- Witness for C4: a malformed entry is not persisted. -/
theorem claim_C4_witness :
    validateResult [] ⟨"2024-01-01", "09:00", "08:00", "Meeting", "", true, false⟩ "a" = false ∧
    (saveEntry [] ⟨"2024-01-01", "09:00", "08:00", "Meeting", "", true, false⟩ "a").2.2 = [] :=
  ⟨by decide,
    (claim_C4_invalid_save_is_storage_noop []
      ⟨"2024-01-01", "09:00", "08:00", "Meeting", "", true, false⟩ "a" (by decide)).2.1⟩

/-! ### Claim C10 -/

theorem svdLoop_putOK : ∀ (l : EntryMap) (m : EntryMap),
    ((svdLoop m l).2.all putOK) = true := by
  intro l
  induction l with
  | nil => intro m; rfl
  | cons q rest ih =>
    intro m
    obtain ⟨du, de⟩ := q
    simp only [svdLoop]
    cases hb : validateResult m de du with
    | true => simp [validateEntry, hb, putOK, ih]
    | false => simp [validateEntry, hb, ih]

/-- C10: every entry written by a `put` — from `saveEntry` or from the
cascade — is valid and not dirty at the moment it is written. -/
theorem claim_C10_puts_are_valid_and_clean (m : EntryMap) (e : TimeEntry)
    (uuid : String) (m2 : EntryMap) :
    ((saveEntry m e uuid).2.2.all putOK = true) ∧
    ((saveValidDitryEntries m2).2.all putOK = true) := by
  constructor
  · cases hb : validateResult m e uuid with
    | true =>
      cases hold : e.valid with
      | true =>
        simp [saveEntry, validateEntry, hb, hold, saveValidDitryEntries, putOK,
          svdLoop_putOK]
      | false => simp [saveEntry, validateEntry, hb, hold, putOK]
    | false => simp [saveEntry, validateEntry, hb]
  · simp [saveValidDitryEntries, putOK, svdLoop_putOK]

/-! ### Claim C3 (code bug: the cascade trigger is inverted) -/

/-- C3: concrete run showing the bug.  Entry `"a"` transitions from invalid
(`valid = false`) to valid during `saveEntry`, entry `"b"` is dirty and
would now validate, yet the cascade is not run: the trace contains no put
for `"b"` and `"b"` stays dirty.  The source's own comment
("previously invalid entry is now valid and saved / need to check dirty
entries that are now valid too") describes the opposite condition of the
`if (oldValidFlag)` test it annotates. -/
theorem claim_C3_cascade_not_run_on_invalid_to_valid :
    (⟨"2024-01-01", "08:00", "09:00", "Meeting", "", false, true⟩ : TimeEntry).valid = false ∧
    validateResult
      [("a", ⟨"2024-01-01", "08:00", "09:00", "Meeting", "", false, true⟩),
       ("b", ⟨"2024-01-01", "10:00", "11:00", "Meeting", "", false, true⟩)]
      ⟨"2024-01-01", "08:00", "09:00", "Meeting", "", false, true⟩ "a" = true ∧
    (saveEntry
      [("a", ⟨"2024-01-01", "08:00", "09:00", "Meeting", "", false, true⟩),
       ("b", ⟨"2024-01-01", "10:00", "11:00", "Meeting", "", false, true⟩)]
      ⟨"2024-01-01", "08:00", "09:00", "Meeting", "", false, true⟩ "a").2.2 =
      [DBEvent.getDB,
       DBEvent.put "a" ⟨"2024-01-01", "08:00", "09:00", "Meeting", "", true, false⟩,
       DBEvent.close] ∧
    lookupEntry (saveEntry
      [("a", ⟨"2024-01-01", "08:00", "09:00", "Meeting", "", false, true⟩),
       ("b", ⟨"2024-01-01", "10:00", "11:00", "Meeting", "", false, true⟩)]
      ⟨"2024-01-01", "08:00", "09:00", "Meeting", "", false, true⟩ "a").1 "b" =
      some ⟨"2024-01-01", "10:00", "11:00", "Meeting", "", false, true⟩ ∧
    validateResult
      [("a", ⟨"2024-01-01", "08:00", "09:00", "Meeting", "", false, true⟩),
       ("b", ⟨"2024-01-01", "10:00", "11:00", "Meeting", "", false, true⟩)]
      ⟨"2024-01-01", "10:00", "11:00", "Meeting", "", false, true⟩ "b" = true := by
  decide

/-! ### Claim C9 (code bug: the cascade never closes its connection) -/

/-- C9: `saveValidDitryEntries` opens a database connection (even when there
is nothing dirty) and never closes it, so a `deleteEntry` of an invalid
entry performs two opens but only one close. -/
theorem claim_C9_cascade_leaks_connection :
    (saveValidDitryEntries ([] : EntryMap)).2.count DBEvent.getDB = 1 ∧
    (saveValidDitryEntries ([] : EntryMap)).2.count DBEvent.close = 0 ∧
    (deleteEntry [("a", ⟨"2024-01-01", "09:00", "08:00", "Meeting", "", false, true⟩)]
      ⟨"2024-01-01", "09:00", "08:00", "Meeting", "", false, true⟩ "a").2.count
        DBEvent.getDB = 2 ∧
    (deleteEntry [("a", ⟨"2024-01-01", "09:00", "08:00", "Meeting", "", false, true⟩)]
      ⟨"2024-01-01", "09:00", "08:00", "Meeting", "", false, true⟩ "a").2.count
        DBEvent.close = 1 := by
  decide

/-! ### Claim C6 -/

theorem updateEntry_keys : ∀ (m : EntryMap) (uuid : String) (e : TimeEntry),
    (updateEntry m uuid e).map Prod.fst = m.map Prod.fst := by
  intro m uuid e
  induction m with
  | nil => rfl
  | cons q t ih =>
    simp only [updateEntry, List.map_cons] at ih ⊢
    by_cases hq : q.1 = uuid
    · rw [if_pos hq, ih, hq]
    · rw [if_neg hq, ih]

theorem svdLoop_keys : ∀ (l m : EntryMap),
    ((svdLoop m l).1).map Prod.fst = m.map Prod.fst := by
  intro l
  induction l with
  | nil => intro m; rfl
  | cons q rest ih =>
    intro m
    obtain ⟨du, de⟩ := q
    simp only [svdLoop]
    cases hb : validateResult m de du with
    | true => simp [validateEntry, hb, ih, updateEntry_keys]
    | false => simp [validateEntry, hb, ih, updateEntry_keys]

theorem saveValidDitryEntries_keys (m : EntryMap) :
    ((saveValidDitryEntries m).1).map Prod.fst = m.map Prod.fst := by
  simp only [saveValidDitryEntries]
  exact svdLoop_keys _ m

/-- C6: `deleteEntry` removes the identifier from the map, issues a store
delete for it, and its trace is the plain open/delete/close sequence when
the deleted entry's `valid` flag was true, prefixed by the cascade's trace
when the flag was false. -/
theorem claim_C6_deleteEntry (m : EntryMap) (e : TimeEntry) (uuid : String) :
    ((deleteEntry m e uuid).1.all (fun p => !(p.1 == uuid)) = true) ∧
    (DBEvent.delete uuid ∈ (deleteEntry m e uuid).2) ∧
    ((deleteEntry m e uuid).2 =
      (if e.valid then []
       else (saveValidDitryEntries (m.filter (fun p => !(p.1 == uuid)))).2) ++
      [DBEvent.getDB, DBEvent.delete uuid, DBEvent.close]) ∧
    ((deleteEntry m e uuid).1 =
      (if e.valid then m.filter (fun p => !(p.1 == uuid))
       else (saveValidDitryEntries (m.filter (fun p => !(p.1 == uuid)))).1)) := by
  have hfil : (m.filter (fun p => !(p.1 == uuid))).all (fun p => !(p.1 == uuid)) = true := by
    rw [List.all_eq_true]
    intro p hp
    exact (List.mem_filter.mp hp).2
  have hkeys : ∀ (l : EntryMap),
      l.map Prod.fst = (m.filter (fun p => !(p.1 == uuid))).map Prod.fst →
      l.all (fun p => !(p.1 == uuid)) = true := by
    intro l hl
    rw [List.all_eq_true]
    intro p hp
    have hmem : p.1 ∈ List.map Prod.fst (List.filter (fun p => !(p.1 == uuid)) m) := by
      rw [← hl]
      exact List.mem_map_of_mem _ hp
    obtain ⟨q, hq, hq1⟩ := List.mem_map.mp hmem
    have hqok : (!(q.1 == uuid)) = true := (List.mem_filter.mp hq).2
    rw [hq1] at hqok
    exact hqok
  cases hv : e.valid with
  | true =>
    refine ⟨?_, ?_, ?_, ?_⟩
    · simp only [deleteEntry, hv, if_pos rfl]
      exact hfil
    · simp [deleteEntry, hv]
    · simp [deleteEntry, hv]
    · simp [deleteEntry, hv]
  | false =>
    refine ⟨?_, ?_, ?_, ?_⟩
    · simp only [deleteEntry, hv, Bool.false_eq_true, if_neg (Bool.false_ne_true)]
      exact hkeys _ (saveValidDitryEntries_keys _)
    · simp [deleteEntry, hv]
    · simp [deleteEntry, hv]
    · simp [deleteEntry, hv]

/-! ### Claim C5 -/

theorem charListLt_irrefl : ∀ l : List Char, charListLt l l = false := by
  intro l
  induction l with
  | nil => rfl
  | cons x xs ih => simp [charListLt, ih]

theorem strLt_irrefl (a : String) : strLt a a = false :=
  charListLt_irrefl a.toList

theorem foldl_strMax_mem : ∀ (l : List String) (init : String),
    l.foldl (fun max current => if strLt current max then max else current) init ∈
      init :: l := by
  intro l
  induction l with
  | nil => intro init; simp [List.foldl]
  | cons x xs ih =>
    intro init
    simp only [List.foldl_cons]
    by_cases hx : strLt x init = true
    · rw [if_pos hx]
      rcases List.mem_cons.mp (ih init) with h | h
      · rw [h]; exact List.mem_cons_self _ _
      · exact List.mem_cons_of_mem _ (List.mem_cons_of_mem _ h)
    · rw [if_neg hx]
      rcases List.mem_cons.mp (ih x) with h | h
      · rw [h]
        exact List.mem_cons_of_mem _ (List.mem_cons_self _ _)
      · exact List.mem_cons_of_mem _ (List.mem_cons_of_mem _ h)

theorem foldl_strMax_ge : ∀ (l : List String) (init : String) (x : String),
    x ∈ init :: l →
    strLt (l.foldl (fun max current => if strLt current max then max else current) init)
      x = false := by
  intro l
  induction l with
  | nil =>
    intro init x hx
    rcases List.mem_cons.mp hx with h | h
    · rw [h]; exact strLt_irrefl init
    · exact absurd h (List.not_mem_nil x)
  | cons y ys ih =>
    intro init x hx
    simp only [List.foldl_cons]
    by_cases hy : strLt y init = true
    · rw [if_pos hy]
      rcases List.mem_cons.mp hx with h | h
      · rw [h]; exact ih init init (List.mem_cons_self _ _)
      · rcases List.mem_cons.mp h with h2 | h2
        · -- x = y, and y < init ≤ result
          rw [h2]
          cases hr : strLt (ys.foldl
              (fun max current => if strLt current max then max else current) init) y with
          | false => rfl
          | true =>
            have hlt := strLt_trans hr hy
            have hge := ih init init (List.mem_cons_self _ _)
            rw [hge] at hlt
            exact absurd hlt (by simp)
        · exact ih init x (List.mem_cons_of_mem _ h2)
    · rw [if_neg hy]
      have hy' : strLt y init = false := by
        cases hyy : strLt y init with
        | false => rfl
        | true => exact absurd hyy hy
      rcases List.mem_cons.mp hx with h | h
      · -- x = init and init ≤ y ≤ result
        rw [h]
        have hry := ih y y (List.mem_cons_self _ _)
        cases hr : strLt (ys.foldl
            (fun max current => if strLt current max then max else current) y) init with
        | false => rfl
        | true =>
          cases hiy : strLt init y with
          | true =>
            have := strLt_trans hr hiy
            rw [hry] at this
            exact absurd this (by simp)
          | false =>
            have heq : y = init := strLt_eq_of_not_lt hy' hiy
            subst heq
            rw [hr] at hry
            exact absurd hry (by simp)
      · rcases List.mem_cons.mp h with h2 | h2
        · rw [h2]; exact ih y y (List.mem_cons_self _ _)
        · exact ih y x (List.mem_cons_of_mem _ h2)

theorem getLatestTime_mem (m : EntryMap) (d : String) :
    getLatestTime m d ∈
      "07:00" :: (filterMap m TimeEntryKey.date (JSValue.str d)).map (fun p => p.2.endT) :=
  foldl_strMax_mem _ _

theorem getLatestTime_ge (m : EntryMap) (d : String) :
    ∀ x ∈ "07:00" ::
      (filterMap m TimeEntryKey.date (JSValue.str d)).map (fun p => p.2.endT),
      strLt (getLatestTime m d) x = false := by
  intro x hx
  exact foldl_strMax_ge _ _ x hx

theorem saveEntry_times (m : EntryMap) (e : TimeEntry) (uuid : String) :
    (saveEntry m e uuid).2.1.date = e.date ∧
    (saveEntry m e uuid).2.1.start = e.start ∧
    (saveEntry m e uuid).2.1.endT = e.endT := by
  cases hb : validateResult m e uuid with
  | true =>
    cases hold : e.valid with
    | true => simp [saveEntry, validateEntry, hb, hold]
    | false => simp [saveEntry, validateEntry, hb, hold]
  | false => simp [saveEntry, validateEntry, hb]

theorem lookupEntry_updateEntry_self : ∀ (m : EntryMap) (uuid : String) (e : TimeEntry),
    m.any (fun p => p.1 = uuid) = true →
    lookupEntry (updateEntry m uuid e) uuid = some e := by
  intro m uuid e
  induction m with
  | nil => intro h; simp at h
  | cons q t ih =>
    intro h
    by_cases hq : q.1 = uuid
    · simp [lookupEntry, updateEntry, hq]
    · have h' : t.any (fun p => p.1 = uuid) = true := by
        simp only [List.any_cons, Bool.or_eq_true] at h
        rcases h with h1 | h2
        · exact absurd (of_decide_eq_true h1) hq
        · exact h2
      have hrec := ih h'
      simp only [lookupEntry, updateEntry, List.map_cons] at hrec ⊢
      rw [if_neg hq]
      rw [List.find?_cons_of_neg _ (by simp [hq])]
      exact hrec

theorem lookupEntry_setEntry_self (m : EntryMap) (uuid : String) (e : TimeEntry) :
    lookupEntry (setEntry m uuid e) uuid = some e := by
  cases hx : m.any (fun p => p.1 = uuid) with
  | true =>
    simp only [setEntry, hx, if_pos rfl]
    exact lookupEntry_updateEntry_self m uuid e hx
  | false =>
    simp only [setEntry, hx, Bool.false_eq_true, if_neg (Bool.false_ne_true)]
    have hnone : m.find? (fun p => p.1 = uuid) = none := by
      rw [List.find?_eq_none]
      intro p hp hdec
      have hany : m.any (fun p => p.1 = uuid) = true :=
        List.any_eq_true.mpr ⟨p, hp, hdec⟩
      rw [hx] at hany
      exact absurd hany (by simp)
    simp [lookupEntry, List.find?_append, hnone]

theorem find?_key_map (m : EntryMap) (g : String × TimeEntry → TimeEntry) (uuid : String) :
    (m.map (fun p => (p.1, g p))).find? (fun p => p.1 = uuid) =
      (m.find? (fun p => p.1 = uuid)).map (fun p => (p.1, g p)) := by
  induction m with
  | nil => rfl
  | cons q t ih =>
    simp only [List.map_cons]
    by_cases hq : q.1 = uuid
    · rw [List.find?_cons_of_pos _ (by simp [hq]), List.find?_cons_of_pos _ (by simp [hq])]
      rfl
    · rw [List.find?_cons_of_neg _ (by simp [hq]), List.find?_cons_of_neg _ (by simp [hq])]
      exact ih

theorem lookupEntry_updateValidationStatus (m : EntryMap) (uuid : String) (e : TimeEntry)
    (h : lookupEntry m uuid = some e) :
    lookupEntry (updateValidationStatus m) uuid =
      some { e with valid := validateResult m e uuid } := by
  rw [updateValidationStatus_eq]
  simp only [lookupEntry] at h ⊢
  rw [find?_key_map]
  obtain ⟨p, hp, hp2⟩ : ∃ p, m.find? (fun p => p.1 = uuid) = some p ∧ p.2 = e := by
    cases hf : m.find? (fun p => p.1 = uuid) with
    | none => rw [hf] at h; simp at h
    | some p =>
      rw [hf] at h
      simp only [Option.map_some'] at h
      exact ⟨p, rfl, Option.some.inj h⟩
  have hkey : p.1 = uuid := by
    have h2 := List.find?_some hp
    exact of_decide_eq_true h2
  rw [hp]
  simp [hkey, hp2]

theorem addNew_times (m : EntryMap) (uuid today : String) :
    (addNew m uuid today).2.1.date = (addNewEntry m today).date ∧
    (addNew m uuid today).2.1.start = (addNewEntry m today).start ∧
    (addNew m uuid today).2.1.endT = (addNewEntry m today).endT := by
  simp only [addNew]
  rw [lookupEntry_updateValidationStatus _ _ _ (lookupEntry_setEntry_self m uuid _)]
  simp only [Option.getD_some]
  exact saveEntry_times _ _ _

/-- C5 (amended): the entry created by `addNew` has today's date; its start is
the maximum of the fixed floor `"07:00"` and the end-times of the existing
same-day entries (the maximum of that whole list, not merely "the latest
end-time, or the floor when there are none"); its end is the last
representable time `"23:59"` when start is `"23:30"` or later, and start
plus 30 minutes otherwise. -/
theorem claim_C5_addNew_defaults (m : EntryMap) (uuid today : String) :
    ((addNew m uuid today).2.1.date = today) ∧
    ((addNew m uuid today).2.1.start ∈
      "07:00" :: (filterMap m TimeEntryKey.date (JSValue.str today)).map (fun p => p.2.endT)) ∧
    (∀ x ∈ "07:00" ::
        (filterMap m TimeEntryKey.date (JSValue.str today)).map (fun p => p.2.endT),
      strLt (addNew m uuid today).2.1.start x = false) ∧
    (strGe (addNew m uuid today).2.1.start "23:30" = true →
      (addNew m uuid today).2.1.endT = "23:59") ∧
    (∀ k : Nat, strGe (addNew m uuid today).2.1.start "23:30" = false →
      dateParse today (addNew m uuid today).2.1.start = some k →
      (addNew m uuid today).2.1.endT = minutesToHHMM (k + 30)) := by
  obtain ⟨hd, hs, he⟩ := addNew_times m uuid today
  have hd' : (addNewEntry m today).date = today := rfl
  have hs' : (addNewEntry m today).start = getLatestTime m today := rfl
  refine ⟨by rw [hd, hd'], ?_, ?_, ?_, ?_⟩
  · rw [hs, hs']
    exact getLatestTime_mem m today
  · intro x hx
    rw [hs, hs']
    exact getLatestTime_ge m today x hx
  · intro hcap
    rw [hs, hs'] at hcap
    rw [he]
    show (if strGe (getLatestTime m today) "23:30" then "23:59"
      else match dateParse today (getLatestTime m today) with
        | some startTime => minutesToHHMM (startTime + 30)
        | none => "Inval") = "23:59"
    rw [if_pos hcap]
  · intro k hcap hk
    rw [hs, hs'] at hcap hk
    rw [he]
    show (if strGe (getLatestTime m today) "23:30" then "23:59"
      else match dateParse today (getLatestTime m today) with
        | some startTime => minutesToHHMM (startTime + 30)
        | none => "Inval") = minutesToHHMM (k + 30)
    rw [if_neg (by rw [hcap]; exact Bool.false_ne_true), hk]

/-- Counterexample for C5 as stated: with one same-day entry ending at
`"06:00"`, the new entry's start is the floor `"07:00"`, not the latest
same-day end-time. -/
theorem claim_C5_counterexample :
    (filterMap [("x", ⟨"2024-01-03", "05:00", "06:00", "Meeting", "", true, false⟩)]
        TimeEntryKey.date (JSValue.str "2024-01-03")).map (fun p => p.2.endT) = ["06:00"] ∧
    (addNew [("x", ⟨"2024-01-03", "05:00", "06:00", "Meeting", "", true, false⟩)]
      "n" "2024-01-03").2.1.start = "07:00" ∧
    ("07:00" : String) ≠ "06:00" := by
  refine ⟨by decide, ?_, by decide⟩
  decide

/-- Witness for C5: the spec's two scenarios.  Latest same-day end `"17:45"`
gives start `"17:45"` and end `"18:15"`; latest end `"23:45"` gives start
`"23:45"` and end `"23:59"`. -/
theorem claim_C5_witness :
    (addNew [("x", ⟨"2024-01-02", "08:00", "17:45", "Meeting", "", true, false⟩)]
      "n" "2024-01-02").2.1.start = "17:45" ∧
    strGe (addNew [("x", ⟨"2024-01-02", "08:00", "17:45", "Meeting", "", true, false⟩)]
      "n" "2024-01-02").2.1.start "23:30" = false ∧
    dateParse "2024-01-02" (addNew [("x", ⟨"2024-01-02", "08:00", "17:45", "Meeting", "", true, false⟩)]
      "n" "2024-01-02").2.1.start = some (20240102 * 1440 + 1065) ∧
    (addNew [("x", ⟨"2024-01-02", "08:00", "17:45", "Meeting", "", true, false⟩)]
      "n" "2024-01-02").2.1.endT = minutesToHHMM (20240102 * 1440 + 1065 + 30) ∧
    (addNew [("x", ⟨"2024-01-02", "08:00", "17:45", "Meeting", "", true, false⟩)]
      "n" "2024-01-02").2.1.endT = "18:15" ∧
    strGe (addNew [("x", ⟨"2024-01-02", "08:00", "23:45", "Meeting", "", true, false⟩)]
      "n" "2024-01-02").2.1.start "23:30" = true ∧
    (addNew [("x", ⟨"2024-01-02", "08:00", "23:45", "Meeting", "", true, false⟩)]
      "n" "2024-01-02").2.1.endT = "23:59" :=
  ⟨by decide, by decide, by decide,
    (claim_C5_addNew_defaults
      [("x", ⟨"2024-01-02", "08:00", "17:45", "Meeting", "", true, false⟩)]
      "n" "2024-01-02").2.2.2.2 (20240102 * 1440 + 1065) (by decide) (by decide),
    by decide,
    by decide,
    (claim_C5_addNew_defaults
      [("x", ⟨"2024-01-02", "08:00", "23:45", "Meeting", "", true, false⟩)]
      "n" "2024-01-02").2.2.2.1 (by decide)⟩

/-! ### Claim C8 -/

theorem insertSorted_perm (le : α → α → Bool) (x : α) :
    ∀ l : List α, (insertSorted le x l).Perm (x :: l) := by
  intro l
  induction l with
  | nil => exact List.Perm.refl _
  | cons y ys ih =>
    simp only [insertSorted]
    by_cases h : le x y = true
    · rw [if_pos h]
    · rw [if_neg h]
      exact (List.Perm.cons y ih).trans (List.Perm.swap x y ys)

theorem jsSort_perm (le : α → α → Bool) : ∀ l : List α, (jsSort le l).Perm l := by
  intro l
  induction l with
  | nil => exact List.Perm.refl _
  | cons x xs ih =>
    exact (insertSorted_perm le x (jsSort le xs)).trans (List.Perm.cons x ih)

theorem pairwise_insertSorted (le : α → α → Bool) (P : α → Prop)
    (total : ∀ a b, P a → P b → le a b = true ∨ le b a = true)
    (htrans : ∀ a b c, P a → P b → P c → le a b = true → le b c = true → le a c = true) :
    ∀ (l : List α) (x : α), P x → (∀ y ∈ l, P y) →
    l.Pairwise (fun a b => le a b = true) →
    (insertSorted le x l).Pairwise (fun a b => le a b = true) := by
  intro l
  induction l with
  | nil =>
    intro x _ _ _
    simp [insertSorted]
  | cons y ys ih =>
    intro x hx hl hp
    simp only [insertSorted]
    have hy : P y := hl y (List.mem_cons_self _ _)
    have hys : ∀ z ∈ ys, P z := fun z hz => hl z (List.mem_cons_of_mem _ hz)
    rcases List.pairwise_cons.mp hp with ⟨hyall, hpys⟩
    by_cases hxy : le x y = true
    · rw [if_pos hxy]
      refine List.pairwise_cons.mpr ⟨?_, hp⟩
      intro z hz
      rcases List.mem_cons.mp hz with h | h
      · exact h ▸ hxy
      · exact htrans x y z hx hy (hys z h) hxy (hyall z h)
    · rw [if_neg hxy]
      have hyx : le y x = true := by
        rcases total x y hx hy with h | h
        · exact absurd h hxy
        · exact h
      refine List.pairwise_cons.mpr ⟨?_, ih x hx hys hpys⟩
      intro z hz
      have hz' : z ∈ x :: ys := (insertSorted_perm le x ys).mem_iff.mp hz
      rcases List.mem_cons.mp hz' with h | h
      · exact h ▸ hyx
      · exact hyall z h

theorem pairwise_jsSort (le : α → α → Bool) (P : α → Prop)
    (total : ∀ a b, P a → P b → le a b = true ∨ le b a = true)
    (htrans : ∀ a b c, P a → P b → P c → le a b = true → le b c = true → le a c = true) :
    ∀ l : List α, (∀ y ∈ l, P y) →
    (jsSort le l).Pairwise (fun a b => le a b = true) := by
  intro l
  induction l with
  | nil => intro _; simp [jsSort]
  | cons x xs ih =>
    intro hl
    have hx : P x := hl x (List.mem_cons_self _ _)
    have hxs : ∀ y ∈ xs, P y := fun y hy => hl y (List.mem_cons_of_mem _ hy)
    have hsorted : ∀ y ∈ jsSort le xs, P y := by
      intro y hy
      exact hxs y ((jsSort_perm le xs).mem_iff.mp hy)
    exact pairwise_insertSorted le P total htrans (jsSort le xs) x hx hsorted (ih hxs)

theorem jsLt_asymm {x y : Option Nat} (h : jsLt x y = true) : jsLt y x = false := by
  cases x with
  | none => simp [jsLt] at h
  | some a =>
    cases y with
    | none => simp [jsLt] at h
    | some b =>
      simp only [jsLt, decide_eq_true_eq] at h
      simp only [jsLt, decide_eq_false_iff_not]
      omega

theorem ite6_neg (l1 l2 l3 l4 l5 l6 : Bool)
    (h12 : l1 = true → l2 = false) (h34 : l3 = true → l4 = false)
    (h56 : l5 = true → l6 = false) :
    (if l2 then (-1 : Int) else if l1 then 1 else if l4 then -1
      else if l3 then 1 else if l6 then -1 else if l5 then 1 else 0) =
    -(if l1 then (-1 : Int) else if l2 then 1 else if l3 then -1
      else if l4 then 1 else if l5 then -1 else if l6 then 1 else 0) := by
  cases l1 <;> cases l2 <;> cases l3 <;> cases l4 <;> cases l5 <;> cases l6 <;>
    simp_all

theorem cmpEntries_neg (a b : String × TimeEntry) :
    cmpEntries b a = -cmpEntries a b := by
  unfold cmpEntries
  refine ite6_neg _ _ _ _ _ _ ?_ ?_ ?_
  · exact fun h => jsLt_asymm h
  · exact fun h => strLt_asymm h
  · exact fun h => strLt_asymm h

theorem cmpEntries_total (a b : String × TimeEntry) :
    cmpEntries a b ≤ 0 ∨ cmpEntries b a ≤ 0 := by
  rw [cmpEntries_neg a b]
  omega

theorem bool_not_true {b : Bool} (h : ¬ b = true) : b = false := by
  cases b with
  | false => rfl
  | true => exact absurd rfl h

theorem cmpEntries_le_zero_iff (a b : String × TimeEntry) (x y : Nat)
    (hx : dateParse a.2.date a.2.start = some x)
    (hy : dateParse b.2.date b.2.start = some y) :
    cmpEntries a b ≤ 0 ↔
      (x < y ∨ (x = y ∧ (strLt a.2.category b.2.category = true ∨
        (a.2.category = b.2.category ∧
          (strLt a.2.description b.2.description = true ∨
            a.2.description = b.2.description))))) := by
  unfold cmpEntries
  rw [hx, hy]
  by_cases h1 : x < y
  · rw [if_pos (by simp [jsLt, h1])]
    constructor
    · intro _; exact Or.inl h1
    · intro _; norm_num
  · rw [if_neg (by simp [jsLt, h1])]
    by_cases h2 : y < x
    · rw [if_pos (by simp [jsLt, h2])]
      constructor
      · intro hc; exact absurd hc (by norm_num)
      · intro hrhs
        rcases hrhs with h | ⟨heq, -⟩
        · exact absurd h h1
        · omega
    · rw [if_neg (by simp [jsLt, h2])]
      have hxy : x = y := by omega
      by_cases h3 : strLt a.2.category b.2.category = true
      · rw [if_pos h3]
        constructor
        · intro _; exact Or.inr ⟨hxy, Or.inl h3⟩
        · intro _; norm_num
      · rw [if_neg h3]
        by_cases h4 : strLt b.2.category a.2.category = true
        · rw [if_pos h4]
          constructor
          · intro hc; exact absurd hc (by norm_num)
          · intro hrhs
            rcases hrhs with h | ⟨-, hcat⟩
            · exact absurd h h1
            · rcases hcat with h | ⟨hceq, -⟩
              · exact absurd h h3
              · rw [hceq, strLt_irrefl] at h4
                exact absurd h4 (by simp)
        · rw [if_neg h4]
          have hceq : a.2.category = b.2.category :=
            strLt_eq_of_not_lt (bool_not_true h3) (bool_not_true h4)
          by_cases h5 : strLt a.2.description b.2.description = true
          · rw [if_pos h5]
            constructor
            · intro _; exact Or.inr ⟨hxy, Or.inr ⟨hceq, Or.inl h5⟩⟩
            · intro _; norm_num
          · rw [if_neg h5]
            by_cases h6 : strLt b.2.description a.2.description = true
            · rw [if_pos h6]
              constructor
              · intro hc; exact absurd hc (by norm_num)
              · intro hrhs
                rcases hrhs with h | ⟨-, hcat⟩
                · exact absurd h h1
                · rcases hcat with h | ⟨-, hdesc⟩
                  · exact absurd h h3
                  · rcases hdesc with h | hdeq
                    · exact absurd h h5
                    · rw [hdeq, strLt_irrefl] at h6
                      exact absurd h6 (by simp)
            · rw [if_neg h6]
              have hdeq : a.2.description = b.2.description :=
                strLt_eq_of_not_lt (bool_not_true h5) (bool_not_true h6)
              constructor
              · intro _; exact Or.inr ⟨hxy, Or.inr ⟨hceq, Or.inr hdeq⟩⟩
              · intro _; norm_num

theorem cmpEntries_le_trans (a b c : String × TimeEntry)
    (ha : (dateParse a.2.date a.2.start).isSome = true)
    (hb : (dateParse b.2.date b.2.start).isSome = true)
    (hc : (dateParse c.2.date c.2.start).isSome = true)
    (hab : cmpEntries a b ≤ 0) (hbc : cmpEntries b c ≤ 0) :
    cmpEntries a c ≤ 0 := by
  obtain ⟨x, hx⟩ := Option.isSome_iff_exists.mp ha
  obtain ⟨y, hy⟩ := Option.isSome_iff_exists.mp hb
  obtain ⟨z, hz⟩ := Option.isSome_iff_exists.mp hc
  rw [cmpEntries_le_zero_iff a b x y hx hy] at hab
  rw [cmpEntries_le_zero_iff b c y z hy hz] at hbc
  rw [cmpEntries_le_zero_iff a c x z hx hz]
  rcases hab with h1 | ⟨hxy, hcat1⟩
  · rcases hbc with h2 | ⟨hyz, -⟩
    · exact Or.inl (lt_trans h1 h2)
    · exact Or.inl (hyz ▸ h1)
  · rcases hbc with h2 | ⟨hyz, hcat2⟩
    · exact Or.inl (by rw [hxy]; exact h2)
    · refine Or.inr ⟨hxy.trans hyz, ?_⟩
      rcases hcat1 with hc1 | ⟨hce1, hd1⟩
      · rcases hcat2 with hc2 | ⟨hce2, -⟩
        · exact Or.inl (strLt_trans hc1 hc2)
        · exact Or.inl (by rw [← hce2]; exact hc1)
      · rcases hcat2 with hc2 | ⟨hce2, hd2⟩
        · exact Or.inl (by rw [hce1]; exact hc2)
        · refine Or.inr ⟨hce1.trans hce2, ?_⟩
          rcases hd1 with hdd1 | hde1
          · rcases hd2 with hdd2 | hde2
            · exact Or.inl (strLt_trans hdd1 hdd2)
            · exact Or.inl (by rw [← hde2]; exact hdd1)
          · rcases hd2 with hdd2 | hde2
            · exact Or.inl (by rw [hde1]; exact hdd2)
            · exact Or.inr (hde1.trans hde2)

/-- C8: when every entry's date+start parses, `sortEntries` permutes the map
into a list that is ascending for the source comparator (timestamp of
date+start, then category, then description). -/
theorem claim_C8_sortEntries (m : EntryMap)
    (h : m.all (fun p => (dateParse p.2.date p.2.start).isSome) = true) :
    (sortEntries m).Perm m ∧
    (sortEntries m).Pairwise (fun a b => cmpEntries a b ≤ 0) := by
  have h' : ∀ p ∈ m, (dateParse p.2.date p.2.start).isSome = true := by
    rw [List.all_eq_true] at h
    exact h
  constructor
  · exact jsSort_perm _ m
  · have hp := pairwise_jsSort (fun a b => decide (cmpEntries a b ≤ 0))
      (fun p => (dateParse p.2.date p.2.start).isSome = true)
      (fun a b _ _ => by
        rcases cmpEntries_total a b with hle | hle
        · exact Or.inl (decide_eq_true hle)
        · exact Or.inr (decide_eq_true hle))
      (fun a b c pa pb pc h1 h2 =>
        decide_eq_true
          (cmpEntries_le_trans a b c pa pb pc
            (of_decide_eq_true h1) (of_decide_eq_true h2)))
      m h'
    exact hp.imp (fun hab => of_decide_eq_true hab)

/-- Witness for C8: the spec's example, two same-date entries with starts
`09:00` and `08:00`, comes out ordered `08:00` before `09:00`. -/
theorem claim_C8_witness :
    ([("a", ⟨"2024-01-01", "09:00", "10:00", "Meeting", "", false, false⟩),
      ("b", ⟨"2024-01-01", "08:00", "09:00", "Meeting", "", false, false⟩)] : EntryMap).all
        (fun p => (dateParse p.2.date p.2.start).isSome) = true ∧
    ((sortEntries
        [("a", ⟨"2024-01-01", "09:00", "10:00", "Meeting", "", false, false⟩),
         ("b", ⟨"2024-01-01", "08:00", "09:00", "Meeting", "", false, false⟩)]).Perm
        [("a", ⟨"2024-01-01", "09:00", "10:00", "Meeting", "", false, false⟩),
         ("b", ⟨"2024-01-01", "08:00", "09:00", "Meeting", "", false, false⟩)] ∧
      (sortEntries
        [("a", ⟨"2024-01-01", "09:00", "10:00", "Meeting", "", false, false⟩),
         ("b", ⟨"2024-01-01", "08:00", "09:00", "Meeting", "", false, false⟩)]).Pairwise
        (fun a b => cmpEntries a b ≤ 0)) ∧
    (sortEntries
      [("a", ⟨"2024-01-01", "09:00", "10:00", "Meeting", "", false, false⟩),
       ("b", ⟨"2024-01-01", "08:00", "09:00", "Meeting", "", false, false⟩)]).map Prod.fst
      = ["b", "a"] :=
  ⟨by decide, claim_C8_sortEntries _ (by decide), by decide⟩
